import Mathlib

/-!
Verification of the md2adf Markdown-to-ADF converter (`md2adf.go`).

The repository converts a goldmark Markdown AST into an Atlassian Document
Format (ADF) tree.  The goldmark parser itself is an external collaborator:
the converter receives an already-parsed AST.  This development embeds

* the goldmark AST shapes the converter inspects (`MDInline`, `MDBlock`,
  `MDTableRow`, `MDDoc`),
* the ADF output values the converter builds (`Mark`, `ADF`), and
* the conversion functions themselves (`Convert`, `convertNode`,
  `convertChildren`, `convertListItems`, `convertInlineChildren`,
  `inlineNodes`, `mergeTextNodes`, `marksEqual`, `convertTable`,
  `convertTableCells`, `copyMarks`),

each translated directly from the Go source.
-/

namespace Md2Adf

/-- An inline formatting mark.  The Go code represents a mark as a generic
map `Node{"type": ...}`; the converter only ever builds these five shapes
(`em`, `strong`, `code`, `strike`, and `link` with an `attrs.href`). -/
inductive Mark where
  | em
  | strong
  | code
  | strike
  | link (href : String)
deriving DecidableEq, Repr

/-- An ADF output node.  The Go code uses a generic `map[string]any`; the
converter only ever builds the shapes below, so the embedding is a closed
tagged union.  For a `text` leaf, `marks = none` models the absence of the
`"marks"` key and `marks = some l` its presence with value `l`.  For a
`codeBlock`, `language = some s` models `attrs = {"language": s}` and `none`
the absence of the `"attrs"` key.  The `table` constructor carries its two
attrs (`isNumberColumnEnabled`, `layout`) explicitly. -/
inductive ADF where
  | text (txt : String) (marks : Option (List Mark))
  | hardBreak
  | inlineCard (url : String)
  | paragraph (content : List ADF)
  | heading (level : Nat) (content : List ADF)
  | bulletList (content : List ADF)
  | orderedList (content : List ADF)
  | listItem (content : List ADF)
  | codeBlock (language : Option String) (content : List ADF)
  | blockquote (content : List ADF)
  | rule
  | table (isNumberColumnEnabled : Bool) (layout : String) (content : List ADF)
  | tableRow (content : List ADF)
  | tableHeader (content : List ADF)
  | tableCell (content : List ADF)
  | doc (version : Nat) (content : List ADF)
deriving Repr

/-- The line-break flags goldmark exposes on an `ast.Text` node, as the Go
code reads them: it tests `HardLineBreak()` first and `SoftLineBreak()` only
otherwise, so the two flags collapse into three observable states. -/
inductive LineBreak where
  | none
  | soft
  | hard
deriving DecidableEq, Repr

/-- The `AutoLinkType` of a goldmark `ast.AutoLink` node: a bare/angle URL
or an email-style autolink.  The parser classifies this; the converter
receives it on the node. -/
inductive AutoLinkType where
  | url
  | email
deriving DecidableEq, Repr

/-- A goldmark inline AST node, restricted to the data the converter reads:

* `text`: `Segment.Value(source)` plus the line-break flags;
* `emphasis`: `Level` and children;
* `codeSpan`: `Text(source)`;
* `link`: `Destination` and children;
* `autoLink`: its `AutoLinkType` and `URL(source)`;
* `image`: `Text(source)` (the alt text) and `Destination`;
* `strikethrough`: children;
* `rawHTML`: carries nothing the converter uses;
* `otherInline`: any other inline kind, with its children. -/
inductive MDInline where
  | text (segment : String) (brk : LineBreak)
  | emphasis (level : Nat) (children : List MDInline)
  | codeSpan (txt : String)
  | link (destination : String) (children : List MDInline)
  | autoLink (linkType : AutoLinkType) (url : String)
  | image (alt : String) (destination : String)
  | strikethrough (children : List MDInline)
  | rawHTML
  | otherInline (children : List MDInline)
deriving Repr

/-- One row of a goldmark table: `isHeader = true` models an
`extast.TableHeader` child, `false` an `extast.TableRow` child; each cell
(`extast.TableCell`) is given by its inline children. -/
structure MDTableRow where
  isHeader : Bool
  cells : List (List MDInline)
deriving Repr

/-- A goldmark block AST node, restricted to the data the converter reads.
`list` holds one entry per `ast.ListItem` child (the item's block children);
`fencedCodeBlock` carries `Language(source)` (`""` when absent) and the
byte values of its `Lines()`; `codeBlock` is an indented code block;
`otherBlock` is any unrecognized block kind, with its block children. -/
inductive MDBlock where
  | paragraph (children : List MDInline)
  | textBlock (children : List MDInline)
  | heading (level : Nat) (children : List MDInline)
  | list (ordered : Bool) (items : List (List MDBlock))
  | fencedCodeBlock (language : String) (lines : List String)
  | codeBlock (lines : List String)
  | blockquote (children : List MDBlock)
  | thematicBreak
  | table (rows : List MDTableRow)
  | otherBlock (children : List MDBlock)
deriving Repr

/-- A parsed goldmark document: the block children of the root
`ast.Document` node. -/
structure MDDoc where
  blocks : List MDBlock
deriving Repr

/-- `copyMarks` returns a copy of the marks slice (Go makes a defensive
slice copy so that appends by one branch cannot alias a sibling's slice; in
this value-semantics embedding the copy is value-equal to its input). -/
def copyMarks (marks : List Mark) : List Mark :=
  marks

/-- The string `fmt.Sprint` produces for one mark object.  A plain mark is
the map `{"type": t}` and prints as `map[type:t]`; a link mark is
`{"type": "link", "attrs": {"href": h}}` and prints with its keys in sorted
order as `map[attrs:map[href:h] type:link]`. -/
def markString : Mark → String
  | .em => "map[type:em]"
  | .strong => "map[type:strong]"
  | .code => "map[type:code]"
  | .strike => "map[type:strike]"
  | .link href => "map[attrs:map[href:" ++ href ++ "] type:link]"

/-- The `marks` key of a node, as read by the type assertion
`a["marks"].([]Node)`: present only on `text` leaves that carry it. -/
def getMarks : ADF → Option (List Mark)
  | .text _ m => m
  | _ => .none

/-- Whether a node's `"type"` key is `"text"`. -/
def isTextNode : ADF → Bool
  | .text _ _ => true
  | _ => false

/-- `marksEqual` reports whether two nodes carry the same marks: both lack
the `marks` key, or both have it with the same length and pairwise equal
`fmt.Sprint` representations. -/
def marksEqual (a b : ADF) : Bool :=
  match getMarks a, getMarks b with
  | .none, .none => true
  | some aMarks, some bMarks =>
      aMarks.length == bMarks.length &&
        (List.zip aMarks bMarks).all fun p => markString p.1 == markString p.2
  | _, _ => false

/-- The in-place merge `prev["text"] = prev["text"] + node["text"]` performed
by `mergeTextNodes` when two adjacent text nodes carry equal marks: the
merged node keeps `prev`'s marks. -/
def combineText (a b : ADF) : ADF :=
  match a, b with
  | .text sa ma, .text sb _ => .text (sa ++ sb) ma
  | _, _ => a

/-- The loop of `mergeTextNodes`: `cur` is the last element of the `merged`
slice so far (the only one the loop can still mutate) and the list is the
remaining input. -/
def mergeAux : ADF → List ADF → List ADF
  | cur, [] => [cur]
  | cur, n :: rest =>
    if isTextNode cur && isTextNode n && marksEqual cur n then
      mergeAux (combineText cur n) rest
    else
      cur :: mergeAux n rest

/-- `mergeTextNodes` consolidates adjacent `text` nodes with identical marks
by concatenating their text values; inputs of length at most 1 are returned
unchanged. -/
def mergeTextNodes (nodes : List ADF) : List ADF :=
  if nodes.length ≤ 1 then nodes
  else
    match nodes with
    | [] => nodes
    | x :: rest => mergeAux x rest

/-- The per-child loop body of `convertInlineChildren`, prior to the final
`mergeTextNodes` pass: walks the inline children left to right carrying the
active mark list.  Each recursive branch that extends the mark context does
so on `copyMarks marks ++ [newMark]`, mirroring
`append(copyMarks(marks), ...)`.  Note the `text` case: an empty segment
hits `continue` before the line-break handling, so an empty run contributes
nothing at all. -/
def inlineNodes : List MDInline → List Mark → List ADF
  | [], _ => []
  | .text segment brk :: rest, marks =>
      (if segment = "" then []
       else
        ADF.text segment (if marks.length > 0 then some (copyMarks marks) else .none) ::
          (match brk with
           | .hard => [ADF.hardBreak]
           | .soft => [ADF.text " " .none]
           | .none => []))
      ++ inlineNodes rest marks
  | .emphasis level cs :: rest, marks =>
      mergeTextNodes (inlineNodes cs
          (copyMarks marks ++ [if level = 2 then Mark.strong else Mark.em]))
        ++ inlineNodes rest marks
  | .codeSpan txt :: rest, marks =>
      ADF.text txt (some (copyMarks marks ++ [Mark.code])) :: inlineNodes rest marks
  | .link destination cs :: rest, marks =>
      mergeTextNodes (inlineNodes cs (copyMarks marks ++ [Mark.link destination]))
        ++ inlineNodes rest marks
  | .autoLink _ url :: rest, marks =>
      ADF.inlineCard url :: inlineNodes rest marks
  | .image alt destination :: rest, marks =>
      ADF.text (if alt = "" then destination else alt)
          (some (copyMarks marks ++ [Mark.link destination])) :: inlineNodes rest marks
  | .strikethrough cs :: rest, marks =>
      mergeTextNodes (inlineNodes cs (copyMarks marks ++ [Mark.strike]))
        ++ inlineNodes rest marks
  | .rawHTML :: rest, marks => inlineNodes rest marks
  | .otherInline cs :: rest, marks =>
      (if cs.isEmpty then [] else mergeTextNodes (inlineNodes cs marks))
        ++ inlineNodes rest marks
termination_by l _ => sizeOf l

/-- `convertInlineChildren` walks the inline children of a block node with
the inherited mark context and passes the collected leaves through
`mergeTextNodes`. -/
def convertInlineChildren (children : List MDInline) (marks : List Mark) : List ADF :=
  mergeTextNodes (inlineNodes children marks)

/-- The code-text extraction shared by both code-block cases: concatenate
the lines' byte values and remove one trailing newline if present (Go tests
the final byte against the newline byte; for well-formed UTF-8 this is the
final character). -/
def codeText (lines : List String) : String :=
  let code := String.join lines
  if code.endsWith "\n" then code.dropRight 1 else code

/-- The cell node built by `convertTableCells`: Go passes the kind as the
string `"tableHeader"` or `"tableCell"`; here the header flag selects the
corresponding constructor. -/
def cellNode (isHeader : Bool) (content : List ADF) : ADF :=
  if isHeader then ADF.tableHeader content else ADF.tableCell content

/-- `convertTableCells` converts a row's cells: each cell's inline content
is wrapped in exactly one paragraph, an empty paragraph when the inline
content is empty. -/
def convertTableCells (isHeader : Bool) (cells : List (List MDInline)) : List ADF :=
  cells.map fun cell =>
    let inlineContent := convertInlineChildren cell []
    let content :=
      if inlineContent.length > 0 then [ADF.paragraph inlineContent]
      else [ADF.paragraph []]
    cellNode isHeader content

/-- `convertTable` builds the `table` node with its fixed attrs
(`isNumberColumnEnabled = false`, `layout = "default"`) and one `tableRow`
per source row; header rows yield `tableHeader` cells, body rows `tableCell`
cells. -/
def convertTable (rows : List MDTableRow) : ADF :=
  ADF.table false "default"
    (rows.map fun row => ADF.tableRow (convertTableCells row.isHeader row.cells))

mutual

/-- `convertNode` maps one block AST node to its ADF node, or `none` when
the node is dropped (the Go function returns `nil`). -/
def convertNode : MDBlock → Option ADF
  | .paragraph children =>
      let content := convertInlineChildren children []
      if content.length = 0 then .none
      else some (ADF.paragraph content)
  | .textBlock children =>
      let content := convertInlineChildren children []
      if content.length = 0 then .none
      else some (ADF.paragraph content)
  | .heading level children =>
      some (ADF.heading level (convertInlineChildren children []))
  | .list ordered items =>
      if ordered then some (ADF.orderedList (convertListItems items))
      else some (ADF.bulletList (convertListItems items))
  | .fencedCodeBlock language lines =>
      some (ADF.codeBlock (if language = "" then .none else some language)
        [ADF.text (codeText lines) .none])
  | .codeBlock lines =>
      some (ADF.codeBlock .none [ADF.text (codeText lines) .none])
  | .blockquote children =>
      some (ADF.blockquote (convertChildren children))
  | .thematicBreak => some ADF.rule
  | .table rows => some (convertTable rows)
  | .otherBlock children =>
      if children.isEmpty then .none
      else
        match convertChildren children with
        | [] => .none
        | c :: _ => some c

/-- `convertChildren` converts each child via `convertNode`, silently
dropping `nil` results. -/
def convertChildren : List MDBlock → List ADF
  | [] => []
  | b :: bs =>
    match convertNode b with
    | some n => n :: convertChildren bs
    | .none => convertChildren bs

/-- `convertListItems` wraps each list item's converted block content in a
`listItem` node. -/
def convertListItems : List (List MDBlock) → List ADF
  | [] => []
  | item :: rest => ADF.listItem (convertChildren item) :: convertListItems rest

end

/-- `Convert` transforms a parsed Markdown document into an ADF document
node: a `doc` of version 1 whose content is the converted block children.
(Parsing the input string with goldmark happens before this point and is an
external collaborator; `Convert` is total on every parsed AST.) -/
def Convert (document : MDDoc) : ADF :=
  ADF.doc 1 (convertChildren document.blocks)

/-- Modelled from the spec: the external goldmark parser turns the empty
input string into a document with no block children (the parser is outside
this repository; the spec records that empty input yields an empty content
array). -/
def emptyInputAST : MDDoc := ⟨[]⟩

/-! ### The run merger: specification-side definitions

The spec describes `mergeTextNodes` as collapsing each maximal run of
consecutive `text` leaves whose mark lists compare value-wise equal.  The
definitions below follow the spec's words; the equivalence with the
implementation is proved afterwards. -/

/-- The literal of a `text` leaf (dummy `""` on other leaves; only applied
to text leaves of a run). -/
def runText : ADF → String
  | .text s _ => s
  | _ => ""

/-- In-order concatenation of a run's literals onto the head literal. -/
def concatRun (s : String) (rest : List ADF) : String :=
  rest.foldl (fun acc n => acc ++ runText n) s

/-- Spec-side comparison: two leaves belong to the same run when both are
`text` leaves carrying value-wise equal mark lists (same count and the same
mark kind and attrs at each position, i.e. structural equality). -/
def sameTextRun (a b : ADF) : Bool :=
  match a, b with
  | .text _ ma, .text _ mb => decide (ma = mb)
  | _, _ => false

/-- Split a leaf sequence into maximal runs: each entry is a run's head
together with the rest of that run.  Non-text leaves always form singleton
runs, since `sameTextRun` is `false` on them. -/
def splitRuns : List ADF → List (ADF × List ADF)
  | [] => []
  | x :: xs =>
    match splitRuns xs with
    | [] => [(x, [])]
    | (y, ys) :: rest =>
      if sameTextRun x y then (x, y :: ys) :: rest
      else (x, []) :: (y, ys) :: rest

/-- Collapse one maximal run into a single leaf: a text run becomes one
`text` leaf with the concatenated literal (keeping the head's marks); any
other leaf passes through unchanged. -/
def collapseRun : ADF × List ADF → ADF
  | (.text s m, rest) => .text (concatRun s rest) m
  | (x, _) => x

/-- The run merger as the spec words it: collapse every maximal run. -/
def mergeTextNodesSpec (nodes : List ADF) : List ADF :=
  (splitRuns nodes).map collapseRun

/-! ### Text-leaf non-emptiness

`allTextNonempty` is the claim-side predicate: every `text` leaf anywhere
in an output tree carries a non-empty literal.  `inlineWFL` / `blockWFL`
collect the source-side assumptions under which the converter preserves it
(no empty code span, no image with both alt text and destination empty, no
code block whose stripped text is empty). -/

mutual

def allTextNonempty : ADF → Bool
  | .text s _ => !(s = "")
  | .hardBreak => true
  | .inlineCard _ => true
  | .rule => true
  | .paragraph c => allTextNonemptyL c
  | .heading _ c => allTextNonemptyL c
  | .bulletList c => allTextNonemptyL c
  | .orderedList c => allTextNonemptyL c
  | .listItem c => allTextNonemptyL c
  | .codeBlock _ c => allTextNonemptyL c
  | .blockquote c => allTextNonemptyL c
  | .table _ _ c => allTextNonemptyL c
  | .tableRow c => allTextNonemptyL c
  | .tableHeader c => allTextNonemptyL c
  | .tableCell c => allTextNonemptyL c
  | .doc _ c => allTextNonemptyL c

def allTextNonemptyL : List ADF → Bool
  | [] => true
  | x :: xs => allTextNonempty x && allTextNonemptyL xs

end

/-- Source-side assumption on inline nodes: code spans have non-empty text
and images have a non-empty alt text or destination. -/
def inlineWFL : List MDInline → Bool
  | [] => true
  | .text _ _ :: rest => inlineWFL rest
  | .emphasis _ cs :: rest => inlineWFL cs && inlineWFL rest
  | .codeSpan t :: rest => !(t = "") && inlineWFL rest
  | .link _ cs :: rest => inlineWFL cs && inlineWFL rest
  | .autoLink _ _ :: rest => inlineWFL rest
  | .image alt dest :: rest => (!(alt = "") || !(dest = "")) && inlineWFL rest
  | .strikethrough cs :: rest => inlineWFL cs && inlineWFL rest
  | .rawHTML :: rest => inlineWFL rest
  | .otherInline cs :: rest => inlineWFL cs && inlineWFL rest

mutual

/-- Source-side assumption on a block: code blocks have non-empty stripped
text, and all nested inline content satisfies `inlineWFL`. -/
def blockWF : MDBlock → Bool
  | .paragraph cs => inlineWFL cs
  | .textBlock cs => inlineWFL cs
  | .heading _ cs => inlineWFL cs
  | .list _ items => blockWFItems items
  | .fencedCodeBlock _ lines => !(codeText lines = "")
  | .codeBlock lines => !(codeText lines = "")
  | .blockquote cs => blockWFL cs
  | .thematicBreak => true
  | .table rows => rows.all fun r => r.cells.all inlineWFL
  | .otherBlock cs => blockWFL cs

def blockWFL : List MDBlock → Bool
  | [] => true
  | b :: bs => blockWF b && blockWFL bs

def blockWFItems : List (List MDBlock) → Bool
  | [] => true
  | item :: rest => blockWFL item && blockWFItems rest

end

/-! ### Injectivity of the `fmt.Sprint` encoding of marks

`marksEqual` compares marks via their `fmt.Sprint` strings; the following
lemmas show this coincides with structural mark equality. -/

theorem string_eq_empty_iff (s : String) : s = "" ↔ s.data = [] := by
  constructor
  · intro h
    rw [h]
  · intro h
    apply String.ext
    rw [h]

theorem markString_length_link (h : String) :
    (markString (Mark.link h)).length = 31 + h.length := by
  show (("map[attrs:map[href:" ++ h) ++ "] type:link]").length = 31 + h.length
  rw [String.length_append, String.length_append]
  have h1 : ("map[attrs:map[href:" : String).length = 19 := rfl
  have h2 : ("] type:link]" : String).length = 12 := rfl
  omega

theorem markString_inj {a b : Mark} (h : markString a = markString b) : a = b := by
  have e1 : ("map[attrs:map[href:" : String).length = 19 := rfl
  have e2 : ("] type:link]" : String).length = 12 := rfl
  have e3 : ("map[type:em]" : String).length = 12 := rfl
  have e4 : ("map[type:strong]" : String).length = 16 := rfl
  have e5 : ("map[type:code]" : String).length = 14 := rfl
  have e6 : ("map[type:strike]" : String).length = 16 := rfl
  cases a <;> cases b <;> simp only [markString] at h <;>
    first
      | rfl
      | (exact absurd h (by decide))
      | (exfalso
         have hl := congrArg String.length h
         simp only [String.length_append, e1, e2, e3, e4, e5, e6] at hl
         omega)
      | (have hd := congrArg String.data h
         simp only [String.data_append] at hd
         have h1 := List.append_cancel_right hd
         have h2 := List.append_cancel_left h1
         exact congrArg Mark.link (String.ext h2))

theorem marksEqualList_iff (xs ys : List Mark) :
    (xs.length == ys.length &&
      (List.zip xs ys).all fun p => markString p.1 == markString p.2) = true ↔ xs = ys := by
  induction xs generalizing ys with
  | nil => cases ys <;> simp
  | cons x xs ih =>
    cases ys with
    | nil => simp
    | cons y ys =>
      simp only [List.length_cons, List.zip_cons_cons, List.all_cons, Bool.and_eq_true,
        beq_iff_eq, List.cons.injEq]
      constructor
      · rintro ⟨hlen, hxy, hall⟩
        refine ⟨markString_inj hxy, (ih ys).mp ?_⟩
        simp only [Bool.and_eq_true, beq_iff_eq]
        exact ⟨by omega, hall⟩
      · rintro ⟨rfl, rfl⟩
        refine ⟨by omega, rfl, ?_⟩
        have := (ih xs).mpr rfl
        simp only [Bool.and_eq_true, beq_iff_eq] at this
        exact this.2

theorem marksEqual_text_iff (s₁ s₂ : String) (m₁ m₂ : Option (List Mark)) :
    marksEqual (.text s₁ m₁) (.text s₂ m₂) = true ↔ m₁ = m₂ := by
  cases m₁ with
  | none =>
    cases m₂ with
    | none => simp [marksEqual, getMarks]
    | some b => simp [marksEqual, getMarks]
  | some a =>
    cases m₂ with
    | none => simp [marksEqual, getMarks]
    | some b =>
      have h0 : marksEqual (.text s₁ (some a)) (.text s₂ (some b)) =
          (a.length == b.length &&
            (List.zip a b).all fun p => markString p.1 == markString p.2) := rfl
      rw [h0, marksEqualList_iff]
      simp

theorem merge_cond_eq_sameTextRun (a b : ADF) :
    (isTextNode a && isTextNode b && marksEqual a b) = sameTextRun a b := by
  cases a <;> cases b <;>
    first
      | (rw [Bool.eq_iff_iff]
         simp only [isTextNode, Bool.true_and, sameTextRun, decide_eq_true_eq]
         exact marksEqual_text_iff _ _ _ _)
      | simp [isTextNode, sameTextRun]

theorem sameTextRun_iff (a b : ADF) :
    sameTextRun a b = true ↔ ∃ s₁ s₂ m, a = .text s₁ m ∧ b = .text s₂ m := by
  cases a <;> cases b <;> simp [sameTextRun]

theorem sameTextRun_congr (s s' : String) (m : Option (List Mark)) (y : ADF) :
    sameTextRun (.text s m) y = sameTextRun (.text s' m) y := by
  cases y <;> simp [sameTextRun]

theorem collapseRun_single (x : ADF) : collapseRun (x, []) = x := by
  cases x <;> simp [collapseRun, concatRun]

theorem splitRuns_cons (x : ADF) (l : List ADF) :
    splitRuns (x :: l) =
      (match splitRuns l with
       | [] => [(x, [])]
       | (y, ys) :: rest =>
         if sameTextRun x y then (x, y :: ys) :: rest
         else (x, []) :: (y, ys) :: rest) := rfl

theorem splitRuns_cons_of_nil {l : List ADF} (x : ADF) (h : splitRuns l = []) :
    splitRuns (x :: l) = [(x, [])] := by
  rw [splitRuns_cons, h]

theorem splitRuns_cons_of_run {l : List ADF} {y : ADF} {ys : List ADF}
    {tail : List (ADF × List ADF)} (x : ADF) (h : splitRuns l = (y, ys) :: tail)
    (hR : sameTextRun x y = true) :
    splitRuns (x :: l) = (x, y :: ys) :: tail := by
  rw [splitRuns_cons, h]
  simp [hR]

theorem splitRuns_cons_of_brk {l : List ADF} {y : ADF} {ys : List ADF}
    {tail : List (ADF × List ADF)} (x : ADF) (h : splitRuns l = (y, ys) :: tail)
    (hR : sameTextRun x y = false) :
    splitRuns (x :: l) = (x, []) :: (y, ys) :: tail := by
  rw [splitRuns_cons, h]
  simp [hR]

theorem splitRuns_head (l : List ADF) (x : ADF) :
    ∃ ys tail, splitRuns (x :: l) = (x, ys) :: tail := by
  rcases h : splitRuns l with _ | ⟨⟨y, ys⟩, r⟩
  · exact ⟨[], [], splitRuns_cons_of_nil x h⟩
  · by_cases hR : sameTextRun x y = true
    · exact ⟨y :: ys, r, splitRuns_cons_of_run x h hR⟩
    · exact ⟨[], (y, ys) :: r, splitRuns_cons_of_brk x h (by simpa using hR)⟩

theorem mergeAux_eq_spec (rest : List ADF) (cur : ADF) :
    mergeAux cur rest = (splitRuns (cur :: rest)).map collapseRun := by
  induction rest generalizing cur with
  | nil =>
    simp only [mergeAux]
    rw [splitRuns_cons_of_nil cur (show splitRuns ([] : List ADF) = [] from rfl)]
    simp [collapseRun_single]
  | cons n rest ih =>
    simp only [mergeAux]
    rw [merge_cond_eq_sameTextRun]
    by_cases hR : sameTextRun cur n = true
    · obtain ⟨s₁, s₂, m, rfl, rfl⟩ := (sameTextRun_iff cur n).mp hR
      rw [if_pos hR, ih]
      have hcomb : combineText (ADF.text s₁ m) (ADF.text s₂ m) = ADF.text (s₁ ++ s₂) m := rfl
      rw [hcomb]
      rcases hs : splitRuns rest with _ | ⟨⟨y, ys⟩, tail⟩
      · rw [splitRuns_cons_of_nil _ hs,
          splitRuns_cons_of_run _ (splitRuns_cons_of_nil (ADF.text s₂ m) hs) hR]
        simp [collapseRun, concatRun, runText]
      · by_cases hR2 : sameTextRun (ADF.text s₂ m) y = true
        · have hR1 : sameTextRun (ADF.text (s₁ ++ s₂) m) y = true :=
            (sameTextRun_congr (s₁ ++ s₂) s₂ m y).trans hR2
          rw [splitRuns_cons_of_run _ hs hR1,
            splitRuns_cons_of_run _ (splitRuns_cons_of_run (ADF.text s₂ m) hs hR2) hR]
          simp [collapseRun, concatRun, runText]
        · have hR2f : sameTextRun (ADF.text s₂ m) y = false := by simpa using hR2
          have hR1 : sameTextRun (ADF.text (s₁ ++ s₂) m) y = false :=
            (sameTextRun_congr (s₁ ++ s₂) s₂ m y).trans hR2f
          rw [splitRuns_cons_of_brk _ hs hR1,
            splitRuns_cons_of_run _ (splitRuns_cons_of_brk (ADF.text s₂ m) hs hR2f) hR]
          simp [collapseRun, concatRun, runText]
    · have hRf : sameTextRun cur n = false := by simpa using hR
      rw [if_neg hR, ih]
      obtain ⟨ys, tail, hsp⟩ := splitRuns_head rest n
      rw [hsp, splitRuns_cons_of_brk cur hsp hRf]
      simp [collapseRun_single]

theorem mergeTextNodes_cons₂ (x y : ADF) (rest : List ADF) :
    mergeTextNodes (x :: y :: rest) = mergeAux x (y :: rest) := by
  unfold mergeTextNodes
  rw [if_neg (by simp)]

theorem mergeTextNodes_eq_spec (nodes : List ADF) :
    mergeTextNodes nodes = mergeTextNodesSpec nodes := by
  rcases nodes with _ | ⟨x, _ | ⟨y, rest⟩⟩
  · rfl
  · show [x] = (splitRuns [x]).map collapseRun
    rw [splitRuns_cons_of_nil x (show splitRuns ([] : List ADF) = [] from rfl)]
    simp [collapseRun_single]
  · rw [mergeTextNodes_cons₂]
    exact mergeAux_eq_spec (y :: rest) x

theorem mergeTextNodes_short (nodes : List ADF) (h : nodes.length ≤ 1) :
    mergeTextNodes nodes = nodes := by
  unfold mergeTextNodes
  rw [if_pos h]

/-! ### Idempotence of the run merger -/

theorem combineText_isText (s₁ : String) (m : Option (List Mark)) (b : ADF) :
    isTextNode (combineText (ADF.text s₁ m) b) = true ∧
      getMarks (combineText (ADF.text s₁ m) b) = m := by
  cases b <;> simp [combineText, isTextNode, getMarks]

theorem marksEqual_congr (a b b' : ADF) (ht : isTextNode b = isTextNode b')
    (hm : getMarks b = getMarks b') :
    (isTextNode a && isTextNode b && marksEqual a b) =
      (isTextNode a && isTextNode b' && marksEqual a b') := by
  have : marksEqual a b = marksEqual a b' := by
    unfold marksEqual
    rw [hm]
  rw [this, ht]

theorem mergeAux_head (cur : ADF) (rest : List ADF) :
    ∃ h t, mergeAux cur rest = h :: t ∧ isTextNode h = isTextNode cur ∧
      getMarks h = getMarks cur := by
  induction rest generalizing cur with
  | nil => exact ⟨cur, [], by simp [mergeAux], rfl, rfl⟩
  | cons n rest ih =>
    simp only [mergeAux]
    by_cases hc : (isTextNode cur && isTextNode n && marksEqual cur n) = true
    · rw [if_pos hc]
      have hcur : isTextNode cur = true := by
        simp only [Bool.and_eq_true] at hc
        exact hc.1.1
      obtain ⟨s₁, m, rfl⟩ : ∃ s m, cur = ADF.text s m := by
        cases cur <;> simp_all [isTextNode]
      obtain ⟨h, t, heq, ht, hm⟩ := ih (combineText (ADF.text s₁ m) n)
      obtain ⟨hct, hcm⟩ := combineText_isText s₁ m n
      exact ⟨h, t, heq, by rw [ht, hct, isTextNode], by rw [hm, hcm, getMarks]⟩
    · rw [if_neg hc]
      exact ⟨cur, mergeAux n rest, rfl, rfl, rfl⟩

theorem mergeAux_chain (cur : ADF) (rest : List ADF) :
    List.Chain' (fun a b => (isTextNode a && isTextNode b && marksEqual a b) = false)
      (mergeAux cur rest) := by
  induction rest generalizing cur with
  | nil => simp [mergeAux]
  | cons n rest ih =>
    simp only [mergeAux]
    by_cases hc : (isTextNode cur && isTextNode n && marksEqual cur n) = true
    · rw [if_pos hc]
      exact ih (combineText cur n)
    · rw [if_neg hc]
      obtain ⟨h, t, heq, ht, hm⟩ := mergeAux_head n rest
      rw [heq]
      refine List.chain'_cons.mpr ⟨?_, heq ▸ ih n⟩
      rw [marksEqual_congr cur h n ht hm]
      simpa using hc

theorem mergeAux_of_chain (x : ADF) (rest : List ADF)
    (h : List.Chain' (fun a b => (isTextNode a && isTextNode b && marksEqual a b) = false)
      (x :: rest)) :
    mergeAux x rest = x :: rest := by
  induction rest generalizing x with
  | nil => simp [mergeAux]
  | cons n rest ih =>
    rw [List.chain'_cons] at h
    simp only [mergeAux]
    rw [if_neg (by simp [h.1])]
    rw [ih n h.2]

/-! ### Splicing of sibling inline branches

Each branch of the per-child inline loop contributes a prefix that depends
only on that child and the inherited mark context; later siblings are
processed with the very same context. -/

theorem inlineNodes_append (xs ys : List MDInline) (marks : List Mark) :
    inlineNodes (xs ++ ys) marks = inlineNodes xs marks ++ inlineNodes ys marks := by
  induction xs with
  | nil => simp [inlineNodes]
  | cons c l ih =>
    cases c with
    | text seg brk =>
      cases brk <;> simp [inlineNodes, ih, List.append_assoc]
    | emphasis level cs => simp [inlineNodes, ih, List.append_assoc]
    | codeSpan t => simp [inlineNodes, ih, List.append_assoc]
    | link d cs => simp [inlineNodes, ih, List.append_assoc]
    | autoLink t u => simp [inlineNodes, ih, List.append_assoc]
    | image a d => simp [inlineNodes, ih, List.append_assoc]
    | strikethrough cs => simp [inlineNodes, ih, List.append_assoc]
    | rawHTML => simp [inlineNodes, ih, List.append_assoc]
    | otherInline cs => simp [inlineNodes, ih, List.append_assoc]

theorem string_append_ne_empty_left {s : String} (t : String) (h : ¬s = "") :
    ¬(s ++ t) = "" := by
  intro he
  rw [string_eq_empty_iff] at he
  rw [String.data_append] at he
  exact h ((string_eq_empty_iff _).mpr (List.append_eq_nil.mp he).1)

theorem allTextNonemptyL_append (a b : List ADF) :
    allTextNonemptyL (a ++ b) = (allTextNonemptyL a && allTextNonemptyL b) := by
  induction a with
  | nil => simp [allTextNonemptyL]
  | cons x xs ih => simp [allTextNonemptyL, ih, Bool.and_assoc]

theorem mergeAux_nonempty (rest : List ADF) (cur : ADF)
    (h : allTextNonempty cur = true) (hr : allTextNonemptyL rest = true) :
    allTextNonemptyL (mergeAux cur rest) = true := by
  induction rest generalizing cur with
  | nil => simp [mergeAux, allTextNonemptyL, h]
  | cons n rest ih =>
    simp only [allTextNonemptyL, Bool.and_eq_true] at hr
    simp only [mergeAux]
    by_cases hc : (isTextNode cur && isTextNode n && marksEqual cur n) = true
    · rw [if_pos hc]
      simp only [Bool.and_eq_true] at hc
      obtain ⟨s₁, m₁, rfl⟩ : ∃ s m, cur = ADF.text s m := by
        cases cur <;> simp_all [isTextNode]
      obtain ⟨s₂, m₂, rfl⟩ : ∃ s m, n = ADF.text s m := by
        cases n <;> simp_all [isTextNode]
      refine ih (combineText (ADF.text s₁ m₁) (ADF.text s₂ m₂)) ?_ hr.2
      have h1 : ¬s₁ = "" := by simpa [allTextNonempty] using h
      show allTextNonempty (ADF.text (s₁ ++ s₂) m₁) = true
      simp [allTextNonempty, string_append_ne_empty_left s₂ h1]
    · rw [if_neg hc]
      simp [allTextNonemptyL, h, ih n hr.1 hr.2]

theorem mergeTextNodes_nonempty (l : List ADF) (h : allTextNonemptyL l = true) :
    allTextNonemptyL (mergeTextNodes l) = true := by
  rcases l with _ | ⟨x, _ | ⟨y, rest⟩⟩
  · exact h
  · exact h
  · rw [mergeTextNodes_cons₂]
    simp only [allTextNonemptyL, Bool.and_eq_true] at h
    exact mergeAux_nonempty (y :: rest) x h.1 (by
      simp [allTextNonemptyL, h.2.1, h.2.2])

theorem inlineNodes_nonempty :
    ∀ (l : List MDInline) (marks : List Mark), inlineWFL l = true →
      allTextNonemptyL (inlineNodes l marks) = true
  | [], _, _ => by simp [inlineNodes, allTextNonemptyL]
  | .text seg brk :: rest, marks, h => by
      have hr : inlineWFL rest = true := by simpa [inlineWFL] using h
      have ih := inlineNodes_nonempty rest marks hr
      by_cases hseg : seg = "" <;> cases brk <;>
        simp [inlineNodes, hseg, allTextNonemptyL_append, allTextNonemptyL,
          allTextNonempty, ih]
  | .emphasis lvl cs :: rest, marks, h => by
      have h1 : inlineWFL cs = true ∧ inlineWFL rest = true := by
        simpa [inlineWFL, Bool.and_eq_true] using h
      have ih1 := inlineNodes_nonempty cs
        (copyMarks marks ++ [if lvl = 2 then Mark.strong else Mark.em]) h1.1
      have ih2 := inlineNodes_nonempty rest marks h1.2
      simp [inlineNodes, allTextNonemptyL_append, mergeTextNodes_nonempty _ ih1, ih2]
  | .codeSpan t :: rest, marks, h => by
      have h1 : ¬t = "" ∧ inlineWFL rest = true := by
        simpa [inlineWFL, Bool.and_eq_true] using h
      have ih := inlineNodes_nonempty rest marks h1.2
      simp [inlineNodes, allTextNonemptyL, allTextNonempty, h1.1, ih]
  | .link d cs :: rest, marks, h => by
      have h1 : inlineWFL cs = true ∧ inlineWFL rest = true := by
        simpa [inlineWFL, Bool.and_eq_true] using h
      have ih1 := inlineNodes_nonempty cs (copyMarks marks ++ [Mark.link d]) h1.1
      have ih2 := inlineNodes_nonempty rest marks h1.2
      simp [inlineNodes, allTextNonemptyL_append, mergeTextNodes_nonempty _ ih1, ih2]
  | .autoLink t u :: rest, marks, h => by
      have ih := inlineNodes_nonempty rest marks (by simpa [inlineWFL] using h)
      simp [inlineNodes, allTextNonemptyL, allTextNonempty, ih]
  | .image alt dest :: rest, marks, h => by
      have h1 : (¬alt = "" ∨ ¬dest = "") ∧ inlineWFL rest = true := by
        simpa [inlineWFL, Bool.and_eq_true, Bool.or_eq_true] using h
      have ih := inlineNodes_nonempty rest marks h1.2
      by_cases ha : alt = ""
      · have hd : ¬dest = "" := by
          rcases h1.1 with hc | hc
          · exact absurd ha hc
          · exact hc
        simp [inlineNodes, ha, allTextNonemptyL, allTextNonempty, hd, ih]
      · simp [inlineNodes, ha, allTextNonemptyL, allTextNonempty, ih]
  | .strikethrough cs :: rest, marks, h => by
      have h1 : inlineWFL cs = true ∧ inlineWFL rest = true := by
        simpa [inlineWFL, Bool.and_eq_true] using h
      have ih1 := inlineNodes_nonempty cs (copyMarks marks ++ [Mark.strike]) h1.1
      have ih2 := inlineNodes_nonempty rest marks h1.2
      simp [inlineNodes, allTextNonemptyL_append, mergeTextNodes_nonempty _ ih1, ih2]
  | .rawHTML :: rest, marks, h => by
      have ih := inlineNodes_nonempty rest marks (by simpa [inlineWFL] using h)
      simpa [inlineNodes] using ih
  | .otherInline cs :: rest, marks, h => by
      have h1 : inlineWFL cs = true ∧ inlineWFL rest = true := by
        simpa [inlineWFL, Bool.and_eq_true] using h
      have ih1 := inlineNodes_nonempty cs marks h1.1
      have ih2 := inlineNodes_nonempty rest marks h1.2
      by_cases hcs : cs.isEmpty <;>
        simp [inlineNodes, hcs, allTextNonemptyL_append,
          mergeTextNodes_nonempty _ ih1, ih2, allTextNonemptyL]
termination_by l _ _ => sizeOf l

theorem convertInlineChildren_nonempty (l : List MDInline) (marks : List Mark)
    (h : inlineWFL l = true) :
    allTextNonemptyL (convertInlineChildren l marks) = true :=
  mergeTextNodes_nonempty _ (inlineNodes_nonempty l marks h)

theorem convertTableCells_nonempty (isHeader : Bool) (cells : List (List MDInline))
    (h : cells.all inlineWFL = true) :
    allTextNonemptyL (convertTableCells isHeader cells) = true := by
  induction cells with
  | nil => simp [convertTableCells, allTextNonemptyL]
  | cons cell cells ih =>
    simp only [List.all_cons, Bool.and_eq_true] at h
    have hcell := convertInlineChildren_nonempty cell [] h.1
    by_cases hlen : (convertInlineChildren cell []).length > 0 <;>
      cases isHeader <;>
        simp [convertTableCells, cellNode, hlen, allTextNonemptyL, allTextNonempty,
          hcell, ih h.2] <;>
        simpa [convertTableCells] using ih h.2

theorem convertTable_nonempty (rows : List MDTableRow)
    (h : (rows.all fun r => r.cells.all inlineWFL) = true) :
    allTextNonempty (convertTable rows) = true := by
  show allTextNonemptyL (rows.map fun row =>
    ADF.tableRow (convertTableCells row.isHeader row.cells)) = true
  induction rows with
  | nil => simp [allTextNonemptyL]
  | cons r rows ih =>
    simp only [List.all_cons, Bool.and_eq_true] at h
    simp [allTextNonemptyL, allTextNonempty,
      convertTableCells_nonempty r.isHeader r.cells h.1, ih h.2]

mutual

theorem convertNode_nonempty :
    ∀ (b : MDBlock), blockWF b = true → ∀ a, convertNode b = some a →
      allTextNonempty a = true
  | .paragraph cs, h, a, ha => by
      simp only [convertNode] at ha
      split at ha
      · exact absurd ha (by simp)
      · injection ha with h2
        subst h2
        simpa [allTextNonempty] using
          convertInlineChildren_nonempty cs [] (by simpa [blockWF] using h)
  | .textBlock cs, h, a, ha => by
      simp only [convertNode] at ha
      split at ha
      · exact absurd ha (by simp)
      · injection ha with h2
        subst h2
        simpa [allTextNonempty] using
          convertInlineChildren_nonempty cs [] (by simpa [blockWF] using h)
  | .heading lvl cs, h, a, ha => by
      simp only [convertNode] at ha
      injection ha with h2
      subst h2
      simpa [allTextNonempty] using
        convertInlineChildren_nonempty cs [] (by simpa [blockWF] using h)
  | .list ordered items, h, a, ha => by
      have hit : blockWFItems items = true := by simpa [blockWF] using h
      simp only [convertNode] at ha
      split at ha <;>
        (injection ha with h2
         subst h2
         simpa [allTextNonempty] using convertListItems_nonempty items hit)
  | .fencedCodeBlock lang lines, h, a, ha => by
      simp only [convertNode] at ha
      injection ha with h2
      subst h2
      have : ¬codeText lines = "" := by simpa [blockWF] using h
      simp [allTextNonempty, allTextNonemptyL, this]
  | .codeBlock lines, h, a, ha => by
      simp only [convertNode] at ha
      injection ha with h2
      subst h2
      have : ¬codeText lines = "" := by simpa [blockWF] using h
      simp [allTextNonempty, allTextNonemptyL, this]
  | .blockquote cs, h, a, ha => by
      simp only [convertNode] at ha
      injection ha with h2
      subst h2
      simpa [allTextNonempty] using
        convertChildren_nonempty cs (by simpa [blockWF] using h)
  | .thematicBreak, h, a, ha => by
      simp only [convertNode] at ha
      injection ha with h2
      subst h2
      simp [allTextNonempty]
  | .table rows, h, a, ha => by
      simp only [convertNode] at ha
      injection ha with h2
      subst h2
      exact convertTable_nonempty rows (by simpa [blockWF] using h)
  | .otherBlock cs, h, a, ha => by
      have hwf : blockWFL cs = true := by simpa [blockWF] using h
      have hcc := convertChildren_nonempty cs hwf
      simp only [convertNode] at ha
      split at ha
      · exact absurd ha (by simp)
      · rcases hs : convertChildren cs with _ | ⟨c, t⟩
        · rw [hs] at ha
          exact absurd ha (by simp)
        · rw [hs] at ha
          simp only at ha
          injection ha with h2
          subst h2
          rw [hs] at hcc
          simp only [allTextNonemptyL, Bool.and_eq_true] at hcc
          exact hcc.1

theorem convertChildren_nonempty :
    ∀ (bs : List MDBlock), blockWFL bs = true →
      allTextNonemptyL (convertChildren bs) = true
  | [], _ => by simp [convertChildren, allTextNonemptyL]
  | b :: bs, h => by
      have h1 : blockWF b = true ∧ blockWFL bs = true := by
        simpa [blockWFL, Bool.and_eq_true] using h
      have ih := convertChildren_nonempty bs h1.2
      rcases hn : convertNode b with _ | n
      · simp [convertChildren, hn, ih]
      · have := convertNode_nonempty b h1.1 n hn
        simp [convertChildren, hn, allTextNonemptyL, this, ih]

theorem convertListItems_nonempty :
    ∀ (items : List (List MDBlock)), blockWFItems items = true →
      allTextNonemptyL (convertListItems items) = true
  | [], _ => by simp [convertListItems, allTextNonemptyL]
  | item :: rest, h => by
      have h1 : blockWFL item = true ∧ blockWFItems rest = true := by
        simpa [blockWFItems, Bool.and_eq_true] using h
      have ih := convertListItems_nonempty rest h1.2
      have hi := convertChildren_nonempty item h1.1
      simp [convertListItems, allTextNonemptyL, allTextNonempty, hi, ih]

end

theorem convertTableCells_eq (isHeader : Bool) (cells : List (List MDInline)) :
    convertTableCells isHeader cells =
      cells.map fun cell => cellNode isHeader [ADF.paragraph (convertInlineChildren cell [])] := by
  unfold convertTableCells
  induction cells with
  | nil => rfl
  | cons cell cs ih =>
    simp only [List.map_cons]
    congr 1
    by_cases h : (convertInlineChildren cell []).length > 0
    · simp [h]
    · have he : convertInlineChildren cell [] = [] :=
        List.length_eq_zero.mp (Nat.eq_zero_of_not_pos h)
      simp [h, he]

theorem convertTable_bodyRows (body : List MDTableRow)
    (hb : ∀ r ∈ body, r.isHeader = false) :
    body.map (fun row => ADF.tableRow (convertTableCells row.isHeader row.cells)) =
      body.map fun r => ADF.tableRow (r.cells.map fun cell =>
        ADF.tableCell [ADF.paragraph (convertInlineChildren cell [])]) := by
  induction body with
  | nil => rfl
  | cons r rs ih =>
    simp only [List.map_cons]
    rw [hb r (by simp), convertTableCells_eq]
    rw [ih fun x hx => hb x (by simp [hx])]
    simp [cellNode]

/-! ## The claims -/

/-- C1: the spec claims that link classification follows the source node
kind, with an explicit link or an *email-style* autolink becoming a `text`
leaf with a `link` mark and only URL autolinks becoming `inlineCard`
leaves.  The converter's `AutoLink` case never inspects the autolink type,
so an email autolink also becomes an `inlineCard` — contradicting the
repository's own tests (`TestConvert_EmailAutoLink`, `TestConvert_BareEmail`),
which demand a `text` leaf with a `mailto:` link mark and no `inlineCard`
for exactly this input.  This theorem evaluates the converter at the failing
input and shows the kind-only (shape-blind) dispatch. -/
theorem c1_email_autolink_inlineCard :
    convertInlineChildren
        [MDInline.text "Contact " LineBreak.none,
          MDInline.autoLink AutoLinkType.email "user@example.com",
          MDInline.text " for help" LineBreak.none] [] =
      [ADF.text "Contact " .none, ADF.inlineCard "user@example.com",
        ADF.text " for help" .none] ∧
    (∀ (t : AutoLinkType) (u : String),
        convertInlineChildren [MDInline.autoLink t u] [] = [ADF.inlineCard u]) := by
  constructor
  · simp [convertInlineChildren, inlineNodes, mergeTextNodes, mergeAux, isTextNode,
      marksEqual, getMarks]
  · intro t u
    simp [convertInlineChildren, inlineNodes, mergeTextNodes]

/-- C2 counterexample: an empty fenced code block converts to a `codeBlock`
containing a `text` leaf whose string is empty, so the output tree does
contain an empty text leaf, refuting the claim as stated. -/
theorem c2_counterexample :
    Convert ⟨[MDBlock.fencedCodeBlock "" []]⟩ =
      ADF.doc 1 [ADF.codeBlock .none [ADF.text "" .none]] ∧
    allTextNonempty (Convert ⟨[MDBlock.fencedCodeBlock "" []]⟩) = false := by
  have hc : codeText [] = "" := rfl
  constructor <;>
    simp [Convert, convertChildren, convertNode, hc, allTextNonempty,
      allTextNonemptyL]

/-- C2 (amended): text leaves produced from inline text runs are non-empty
(empty source segments are dropped), but the single text leaf inside a
`codeBlock` carries the stripped code text even when that is empty, and an
empty code span or an image with empty alt text and destination likewise
yield empty text leaves.  Under the assumptions that every code block's
stripped text is non-empty, every code span's text is non-empty, and every
image has a non-empty alt text or destination (`blockWFL`), every text leaf
in the output tree is non-empty. -/
theorem c2_text_leaves_nonempty (d : MDDoc) (h : blockWFL d.blocks = true) :
    allTextNonempty (Convert d) = true := by
  show allTextNonemptyL (convertChildren d.blocks) = true
  exact convertChildren_nonempty d.blocks h

/-- C2 witness: the amended theorem applied to a concrete document. -/
theorem c2_text_leaves_nonempty_witness :
    blockWFL [MDBlock.paragraph [MDInline.text "hi" LineBreak.none]] = true ∧
    allTextNonempty (Convert ⟨[MDBlock.paragraph [MDInline.text "hi" LineBreak.none]]⟩) =
      true := by
  have hwf : blockWFL [MDBlock.paragraph [MDInline.text "hi" LineBreak.none]] = true := by
    simp [blockWFL, blockWF, inlineWFL]
  exact ⟨hwf, c2_text_leaves_nonempty ⟨[MDBlock.paragraph [MDInline.text "hi" LineBreak.none]]⟩ hwf⟩

/-- C3: `Convert` is a total function (never raises), always returning a
single `doc` node of version 1 whose content is the sequence of converted
top-level blocks, and the empty input (which the external parser turns into
a childless document, `emptyInputAST`) yields an empty content sequence. -/
theorem c3_convert_total_doc :
    (∀ d : MDDoc, Convert d = ADF.doc 1 (convertChildren d.blocks)) ∧
    Convert emptyInputAST = ADF.doc 1 [] :=
  ⟨fun _ => rfl, by simp [Convert, emptyInputAST, convertChildren]⟩

/-- C4: mark contexts never leak between sibling branches.  First, the
inline walker is a homomorphism over sibling sequences: later siblings are
processed with the same inherited mark list, unaffected by an earlier
branch extending its own copy.  Second, converting `*a **b** c*` yields
exactly three text leaves with ordered marks `[em]`, `[em, strong]`,
`[em]`, and a sibling paragraph converted afterwards carries no leaked
`strong` or `em` mark. -/
theorem c4_mark_context_no_leak :
    (∀ (xs ys : List MDInline) (marks : List Mark),
        inlineNodes (xs ++ ys) marks = inlineNodes xs marks ++ inlineNodes ys marks) ∧
    convertInlineChildren
        [MDInline.emphasis 1 [MDInline.text "a " LineBreak.none,
          MDInline.emphasis 2 [MDInline.text "b" LineBreak.none],
          MDInline.text " c" LineBreak.none]] [] =
      [ADF.text "a " (some [Mark.em]), ADF.text "b" (some [Mark.em, Mark.strong]),
        ADF.text " c" (some [Mark.em])] ∧
    convertChildren
        [MDBlock.paragraph [MDInline.emphasis 1 [MDInline.text "a " LineBreak.none,
            MDInline.emphasis 2 [MDInline.text "b" LineBreak.none],
            MDInline.text " c" LineBreak.none]],
          MDBlock.paragraph [MDInline.text "d" LineBreak.none]] =
      [ADF.paragraph [ADF.text "a " (some [Mark.em]),
          ADF.text "b" (some [Mark.em, Mark.strong]), ADF.text " c" (some [Mark.em])],
        ADF.paragraph [ADF.text "d" .none]] := by
  refine ⟨inlineNodes_append, ?_, ?_⟩
  · simp [convertInlineChildren, inlineNodes, mergeTextNodes, mergeAux, isTextNode,
      marksEqual, getMarks, markString, combineText, copyMarks]
  · simp [convertChildren, convertNode, convertInlineChildren, inlineNodes,
      mergeTextNodes, mergeAux, isTextNode, marksEqual, getMarks, markString,
      combineText, copyMarks]

/-- C5: the run merger collapses every maximal run of consecutive text
leaves carrying value-wise equal ordered mark lists into one text leaf with
the in-order concatenation of the run's literals, passes all other leaves
through unchanged (they terminate runs), and returns sequences of length at
most 1 unchanged. -/
theorem c5_run_merger_spec :
    (∀ nodes : List ADF, mergeTextNodes nodes = mergeTextNodesSpec nodes) ∧
    (∀ nodes : List ADF, nodes.length ≤ 1 → mergeTextNodes nodes = nodes) :=
  ⟨mergeTextNodes_eq_spec, mergeTextNodes_short⟩

/-- C5 witness: the length-at-most-1 clause applied to a concrete
singleton. -/
theorem c5_run_merger_spec_witness : mergeTextNodes [ADF.rule] = [ADF.rule] :=
  c5_run_merger_spec.2 [ADF.rule] (by simp)

/-- C6 counterexample: a text run with an empty literal but flagged as a
hard line break contributes nothing at all — the `continue` on the empty
segment skips the break handling too — refuting the claim that the break
leaf is emitted independently of whether a literal was emitted. -/
theorem c6_counterexample :
    convertInlineChildren [MDInline.text "" LineBreak.hard] [] = [] ∧
    ADF.hardBreak ∉ convertInlineChildren [MDInline.text "" LineBreak.hard] [] := by
  constructor <;> simp [convertInlineChildren, inlineNodes, mergeTextNodes]

/-- C6 (amended): for a plain text run with a *non-empty* literal, a text
leaf with the literal and the active marks is emitted (the marks key
omitted when the active-mark list is empty), followed by a `hardBreak` leaf
when the run is flagged as a hard break, else a single-space text leaf with
no marks when flagged as a soft break; a run with an empty literal
contributes nothing at all — its break flag is dropped with it. -/
theorem c6_text_run_emission (seg : String) (brk : LineBreak) (rest : List MDInline)
    (marks : List Mark) :
    inlineNodes (.text seg brk :: rest) marks =
      (if seg = "" then []
       else
        ADF.text seg (if marks.length > 0 then some (copyMarks marks) else .none) ::
          (match brk with
           | .hard => [ADF.hardBreak]
           | .soft => [ADF.text " " .none]
           | .none => ([] : List ADF)))
        ++ inlineNodes rest marks := by
  cases brk <;> simp [inlineNodes]

/-- C7: a paragraph whose converted inline content is empty is dropped
(`convertNode` returns nothing), a paragraph with non-empty converted
content becomes a `paragraph` node, and a heading is always emitted as a
`heading` node with `attrs.level` equal to the source level, even when its
converted inline content is empty. -/
theorem c7_paragraph_suppressed_heading_kept :
    (∀ cs : List MDInline, convertInlineChildren cs [] = [] →
        convertNode (MDBlock.paragraph cs) = .none) ∧
    (∀ cs : List MDInline, convertInlineChildren cs [] ≠ [] →
        convertNode (MDBlock.paragraph cs) =
          some (ADF.paragraph (convertInlineChildren cs []))) ∧
    (∀ (level : Nat) (cs : List MDInline),
        convertNode (MDBlock.heading level cs) =
          some (ADF.heading level (convertInlineChildren cs []))) := by
  refine ⟨?_, ?_, ?_⟩
  · intro cs h
    simp [convertNode, h]
  · intro cs h
    simp [convertNode, List.length_eq_zero, h]
  · intro level cs
    simp [convertNode]

/-- C7 witness: the empty paragraph is dropped, a non-empty paragraph and
an empty heading are emitted. -/
theorem c7_paragraph_suppressed_heading_kept_witness :
    convertNode (MDBlock.paragraph []) = .none ∧
    convertNode (MDBlock.paragraph [MDInline.text "x" LineBreak.none]) =
      some (ADF.paragraph [ADF.text "x" .none]) ∧
    convertNode (MDBlock.heading 2 []) = some (ADF.heading 2 []) := by
  refine ⟨?_, ?_, ?_⟩
  · exact c7_paragraph_suppressed_heading_kept.1 []
      (by simp [convertInlineChildren, inlineNodes, mergeTextNodes])
  · rw [c7_paragraph_suppressed_heading_kept.2.1 [MDInline.text "x" LineBreak.none]
      (by simp [convertInlineChildren, inlineNodes, mergeTextNodes])]
    simp [convertInlineChildren, inlineNodes, mergeTextNodes]
  · rw [c7_paragraph_suppressed_heading_kept.2.2 2 []]
    simp [convertInlineChildren, inlineNodes, mergeTextNodes]

/-- C8: for an unrecognized block kind, the fallback converts the children
and returns only the first non-dropped converted child (later siblings are
discarded); a childless unrecognized block, or one all of whose children
convert to nothing, yields nothing; the fallback is a total function (never
raises). -/
theorem c8_unknown_block_fallback :
    (∀ children : List MDBlock,
        convertNode (MDBlock.otherBlock children) = (convertChildren children).head?) ∧
    convertNode (MDBlock.otherBlock []) = .none := by
  constructor
  · intro children
    rcases children with _ | ⟨b, bs⟩
    · simp [convertNode, convertChildren]
    · simp only [convertNode]
      rw [if_neg (by simp)]
      rcases h : convertChildren (b :: bs) with _ | ⟨c, t⟩ <;> simp [h]
  · simp [convertNode]

/-- C9: a table converts to a `table` node with
`attrs.isNumberColumnEnabled = false` and `attrs.layout = "default"`,
containing one `tableRow` per source row; the header row's cells have kind
`tableHeader` and every body row's cells have kind `tableCell`; each cell's
content is exactly one `paragraph` node wrapping the cell's converted
inline content — which is the explicit empty sequence when that content is
empty. -/
theorem c9_table_structure (hr : MDTableRow) (body : List MDTableRow)
    (hh : hr.isHeader = true) (hb : ∀ r ∈ body, r.isHeader = false) :
    convertTable (hr :: body) =
      ADF.table false "default"
        (ADF.tableRow (hr.cells.map fun cell =>
            ADF.tableHeader [ADF.paragraph (convertInlineChildren cell [])]) ::
          body.map fun r => ADF.tableRow (r.cells.map fun cell =>
            ADF.tableCell [ADF.paragraph (convertInlineChildren cell [])])) := by
  unfold convertTable
  simp only [List.map_cons]
  rw [hh, convertTableCells_eq, convertTable_bodyRows body hb]
  simp [cellNode]

/-- C9 witness: a three-row table (header plus two body rows, one cell of
which is empty) evaluated through the theorem. -/
theorem c9_table_structure_witness :
    convertTable
        [⟨true, [[MDInline.text "A" LineBreak.none], [MDInline.text "B" LineBreak.none]]⟩,
          ⟨false, [[MDInline.text "a1" LineBreak.none], []]⟩,
          ⟨false, [[MDInline.text "b1" LineBreak.none], [MDInline.text "b2" LineBreak.none]]⟩] =
      ADF.table false "default"
        [ADF.tableRow [ADF.tableHeader [ADF.paragraph [ADF.text "A" .none]],
            ADF.tableHeader [ADF.paragraph [ADF.text "B" .none]]],
          ADF.tableRow [ADF.tableCell [ADF.paragraph [ADF.text "a1" .none]],
            ADF.tableCell [ADF.paragraph []]],
          ADF.tableRow [ADF.tableCell [ADF.paragraph [ADF.text "b1" .none]],
            ADF.tableCell [ADF.paragraph [ADF.text "b2" .none]]]] := by
  rw [c9_table_structure ⟨true, _⟩ _ rfl (by intro r hrm; fin_cases hrm <;> rfl)]
  simp [convertInlineChildren, inlineNodes, mergeTextNodes]

/-- C10: the run merger is idempotent, and equivalently its output never
contains two adjacent text leaves whose mark lists compare equal. -/
theorem c10_merge_idempotent :
    (∀ nodes : List ADF,
        mergeTextNodes (mergeTextNodes nodes) = mergeTextNodes nodes) ∧
    (∀ nodes : List ADF,
        List.Chain' (fun a b => (isTextNode a && isTextNode b && marksEqual a b) = false)
          (mergeTextNodes nodes)) := by
  constructor
  · intro nodes
    rcases nodes with _ | ⟨x, _ | ⟨y, rest⟩⟩
    · rfl
    · rfl
    · rw [mergeTextNodes_cons₂]
      have hch := mergeAux_chain x (y :: rest)
      rcases hm : mergeAux x (y :: rest) with _ | ⟨h, t⟩
      · rfl
      · rw [hm] at hch
        rcases t with _ | ⟨t0, ts⟩
        · rfl
        · rw [mergeTextNodes_cons₂]
          exact mergeAux_of_chain h (t0 :: ts) hch
  · intro nodes
    rcases nodes with _ | ⟨x, _ | ⟨y, rest⟩⟩
    · simp [mergeTextNodes]
    · simp [mergeTextNodes]
    · rw [mergeTextNodes_cons₂]
      exact mergeAux_chain x (y :: rest)

end Md2Adf
